import Mathlib

/-!
Verification development for the webr code-execution API.

The definitions below are a shallow embedding of the TypeScript source:

* `jsonToRDataFrame` and its helpers embed the data marshaller
  (`jsonToRDataFrame` in the execute route).
* `collectStreams`, `collectConds`, `extractPlots` and `postExec` embed the
  output-collection / artifact-extraction / response-assembly part of the
  `POST` handler of the execute route.
* `MConfig`, `stepM`, `runSched` embed the runtime manager
  (`getWebRInstance` in `src/lib/webr-singleton.ts`) as a state machine over
  schedules of atomic JavaScript turns (the event-loop model: each caller's
  synchronous segment between `await` points is one atomic step).

JavaScript strings are modelled as Lean `String` / `List Char`; JavaScript
numbers appearing in payload cells are modelled as `Int` (their `String()`
rendering is the decimal rendering `toString`); `undefined` is modelled as
`Option.none` at lookup positions.
-/

/-! ## Data marshaller: `jsonToRDataFrame`

Source (execute route):
```
const escaped = val.replace(/\\/g, '\\\\').replace(/"/g, '\\"').replace(/\n/g, '\\n');
```
A global single-character replace is `replaceChar`; the chain of three
replaces is `escapeRChars`.
-/

/-- Global replacement of the single character `target` by the character
sequence `repl`, the semantics of JavaScript `s.replace(/t/g, repl)` for a
single-character pattern (the output is never rescanned). -/
def replaceChar (target : Char) (repl : List Char) : List Char → List Char
  | [] => []
  | c :: rest => (if c = target then repl else [c]) ++ replaceChar target repl rest

/-- The escaping chain of the source, on character lists:
backslash first, then double quote, then newline. -/
def escapeRChars (l : List Char) : List Char :=
  replaceChar '\n' ['\\', 'n']
    (replaceChar '"' ['\\', '"']
      (replaceChar '\\' ['\\', '\\'] l))

/-- String-level escaping as used by the marshaller. -/
def escapeRString (s : String) : String :=
  ⟨escapeRChars s.data⟩

/-- The quoted literal the marshaller emits for a string value. -/
def quotedRLit (s : String) : String :=
  "\"" ++ escapeRString s ++ "\""

/-- Per-character view of the escaping chain (proved below to agree with
`escapeRChars`). -/
def escChar (c : Char) : List Char :=
  if c = '\\' then ['\\', '\\']
  else if c = '"' then ['\\', '"']
  else if c = '\n' then ['\\', 'n']
  else [c]

/-- Scalar values a payload cell can carry at runtime.  `str`, `num`, `bool`
and `null` are the JSON scalars; `other` stands for any other runtime type
(`object`, nested array, ...), which the marshaller maps to `NA`. -/
inductive JVal where
  | null
  | str (s : String)
  | num (n : Int)
  | bool (b : Bool)
  | other
deriving DecidableEq

/-- A payload record: a JavaScript object as an ordered key/value list
(`Object.keys` order is the list order; keys are unique in a real object,
though the embedding does not need that). -/
abbrev JRecord := List (String × JVal)

/-- `row[header]` on a record: first binding if present, `undefined`
(`none`) otherwise. -/
def jlookup (r : JRecord) (k : String) : Option JVal :=
  (r.find? (fun p => p.1 == k)).map (·.2)

/-- The marshaller's per-cell rendering, the body of the `data.map(row => ...)`
callback: `undefined`/`null` to `NA`, strings quoted and escaped, numbers by
decimal rendering, booleans to `TRUE`/`FALSE`, anything else to `NA`. -/
def renderValue : Option JVal → String
  | none => "NA"
  | some .null => "NA"
  | some (.str s) => "\"" ++ escapeRString s ++ "\""
  | some (.num n) => toString n
  | some (.bool b) => if b then "TRUE" else "FALSE"
  | some .other => "NA"

/-- ASCII word characters, the complement of the source regex
`[^a-zA-Z0-9_]` (`Char.isLower`/`isUpper`/`isDigit` are the ASCII ranges). -/
def isWordChar (c : Char) : Bool :=
  c.isLower || c.isUpper || c.isDigit || c == '_'

/-- `header.replace(/[^a-zA-Z0-9_]/g, '_')`: every character outside
`[A-Za-z0-9_]` becomes an underscore. -/
def sanitizeHeader (s : String) : String :=
  ⟨s.data.map (fun c => if isWordChar c then c else '_')⟩

/-- JavaScript `Array.prototype.join(sep)`. -/
def joinSep (sep : String) : List String → String
  | [] => ""
  | [x] => x
  | x :: xs => x ++ sep ++ joinSep sep xs

/-- The marshaller itself, `jsonToRDataFrame(data, varName)`: empty or absent
payloads yield no source; otherwise the column names come from the first
record, each column is rendered by mapping `renderValue` over all rows, and
the emitted text builds a `data.frame`. -/
def jsonToRDataFrame (data : List JRecord) (varName : String := "query_result") : String :=
  match data with
  | [] => ""
  | r0 :: _ =>
    let headers := r0.map Prod.fst
    let columns := headers.foldl (fun cols h =>
      let values := data.map (fun row => renderValue (jlookup row h))
      cols ++ ["  " ++ sanitizeHeader h ++ " = c(" ++ joinSep ", " values ++ ")"]) []
    varName ++ " <- data.frame(\n" ++ joinSep ",\n" columns ++ ",\n  stringsAsFactors = FALSE\n)"

/-- The `!data` guard of the source: an absent (`null`/`undefined`) payload
also yields no source. -/
def jsonToRDataFrameOpt (data : Option (List JRecord)) (varName : String := "query_result") : String :=
  match data with
  | none => ""
  | some l => jsonToRDataFrame l varName

/-! ### Spec-side definitions for the marshaller claims -/

/-- Scalar-to-literal map as the spec words it: null/undefined to the
missing-value literal, string to a quoted escaped literal, number to its
decimal form, boolean to the language's literals, any other runtime type to
the missing-value literal. Stated separately from `renderValue` so the two
can be compared. -/
def specScalarLit : Option JVal → String
  | none => "NA"
  | some .null => "NA"
  | some (.str s) => "\"" ++ escapeRString s ++ "\""
  | some (.num n) => toString n
  | some (.bool true) => "TRUE"
  | some (.bool false) => "FALSE"
  | some .other => "NA"

/-- The text emitted for one column of the payload (used to characterise
`jsonToRDataFrame` as a map over the first record's column names). -/
def columnOf (data : List JRecord) (h : String) : String :=
  "  " ++ sanitizeHeader h ++ " = c(" ++ joinSep ", " (data.map (fun row => renderValue (jlookup row h))) ++ ")"

/-- Unescaping one escape pair of the target language's string-literal rules:
`\n` denotes a newline, and any other escaped character (in particular `\\`
and `\"`) denotes itself. -/
def unescChar (c : Char) : Char :=
  if c = 'n' then '\n' else c

/-- Parser for the body of a double-quoted string literal under the escaping
rules of the claim: the body ends at an unescaped closing quote, which must
consume the whole input. -/
def parseBody : List Char → Option (List Char)
  | [] => none
  | c :: rest =>
    if c = '"' then (if rest = [] then some [] else none)
    else if c = '\\' then
      match rest with
      | [] => none
      | c2 :: rest2 => (parseBody rest2).map (fun l => unescChar c2 :: l)
    else (parseBody rest).map (fun l => c :: l)

/-- Parser for a full double-quoted string literal. -/
def parseRLit (lit : String) : Option String :=
  match lit.data with
  | '"' :: rest => (parseBody rest).map (fun l => ⟨l⟩)
  | _ => none

/-- Does the string contain a backslash, double quote, or newline? -/
def hasSpecialChar (s : String) : Bool :=
  s.data.any (fun c => c == '\\' || c == '"' || c == '\n')

/-! ## Lemmas about escaping and the marshaller -/

theorem replaceChar_append (t : Char) (r : List Char) (a b : List Char) :
    replaceChar t r (a ++ b) = replaceChar t r a ++ replaceChar t r b := by
  induction a with
  | nil => rfl
  | cons c a ih => simp [replaceChar, ih, List.append_assoc]

theorem escapeRChars_cons (c : Char) (l : List Char) :
    escapeRChars (c :: l) = escChar c ++ escapeRChars l := by
  unfold escapeRChars escChar
  by_cases h1 : c = '\\'
  · subst h1; simp [replaceChar, replaceChar_append]
  · by_cases h2 : c = '"'
    · subst h2; simp [replaceChar, replaceChar_append]
    · by_cases h3 : c = '\n'
      · subst h3; simp [replaceChar, replaceChar_append, h1]
      · simp [replaceChar, replaceChar_append, h1, h2, h3]

theorem parseBody_cons (c : Char) (rest : List Char) :
    parseBody (c :: rest) =
      if c = '"' then (if rest = [] then some [] else none)
      else if c = '\\' then
        (match rest with
         | [] => none
         | c2 :: rest2 => (parseBody rest2).map (fun l => unescChar c2 :: l))
      else (parseBody rest).map (fun l => c :: l) := by
  conv_lhs => rw [parseBody.eq_def]

theorem parseBody_escape (l : List Char) :
    parseBody (escapeRChars l ++ ['"']) = some l := by
  induction l with
  | nil => rfl
  | cons c l ih =>
    rw [escapeRChars_cons, List.append_assoc]
    unfold escChar
    by_cases h1 : c = '\\'
    · subst h1; simp [parseBody_cons, unescChar, ih]
    · by_cases h2 : c = '"'
      · subst h2; simp [parseBody_cons, unescChar, ih]
      · by_cases h3 : c = '\n'
        · subst h3; simp [parseBody_cons, unescChar, ih]
        · simp [parseBody_cons, h1, h2, h3, ih]

theorem renderValue_eq_spec (v : Option JVal) : renderValue v = specScalarLit v := by
  match v with
  | none | some .null | some (.str _) | some (.num _) | some .other => rfl
  | some (.bool b) => cases b <;> rfl

theorem sanitizeHeader_all_word (h : String) :
    ((sanitizeHeader h).data.all isWordChar) = true := by
  rw [show (sanitizeHeader h).data = h.data.map (fun c => if isWordChar c then c else '_') from rfl]
  rw [List.all_map]
  apply List.all_eq_true.mpr
  intro c _
  by_cases hc : isWordChar c
  · simp [Function.comp, hc]
  · simp only [Function.comp, hc]
    simp [hc, isWordChar]

/-- Pushing one element per loop iteration builds exactly the mapped list
(the `columns.push(...)` loop of the source). -/
theorem foldl_push_eq_map (g : α → β) (l : List α) (acc : List β) :
    l.foldl (fun cols h => cols ++ [g h]) acc = acc ++ l.map g := by
  induction l generalizing acc with
  | nil => simp
  | cons x l ih => simp [List.foldl_cons, ih]

/-- `jsonToRDataFrame` on a non-empty payload: one column per key of the
first record, assembled into the `data.frame` template. -/
theorem jsonToRDataFrame_cons (r0 : JRecord) (rs : List JRecord) (vn : String) :
    jsonToRDataFrame (r0 :: rs) vn =
      vn ++ " <- data.frame(\n" ++
        joinSep ",\n" ((r0.map Prod.fst).map (columnOf (r0 :: rs))) ++
        ",\n  stringsAsFactors = FALSE\n)" := by
  simp only [jsonToRDataFrame]
  rw [foldl_push_eq_map]
  simp [Function.comp_def, columnOf]

/-! ## Claim theorems for the data marshaller -/

/-- C3: for every string value containing backslash, quote, or newline
characters, the quoted literal emitted by the data marshaller, when re-parsed
under the target language's string-literal escaping rules, yields exactly the
original string. -/
theorem c3_string_literal_roundtrip (s : String) (_h : hasSpecialChar s = true) :
    parseRLit (quotedRLit s) = some s := by
  have hdata : (quotedRLit s).data = '"' :: (escapeRChars s.data ++ ['"']) := by
    simp [quotedRLit, escapeRString, String.data_append]
  unfold parseRLit
  rw [hdata]
  simp [parseBody_escape]

theorem c3_string_literal_roundtrip_witness :
    hasSpecialChar "a\\b\"c\nd" = true ∧
      parseRLit (quotedRLit "a\\b\"c\nd") = some "a\\b\"c\nd" :=
  ⟨by decide, c3_string_literal_roundtrip "a\\b\"c\nd" (by decide)⟩

/-- C4: an absent or empty payload yields empty source text, and each scalar
maps exactly as the spec's per-variant literal function `specScalarLit`
prescribes (null/undefined to `NA`, strings to quoted escaped literals,
numbers to decimal literals, booleans to `TRUE`/`FALSE`, anything else to
`NA`); for a one-cell payload the emitted source interpolates that literal. -/
theorem c4_scalar_marshalling :
    (∀ v, renderValue v = specScalarLit v)
    ∧ jsonToRDataFrameOpt none = ""
    ∧ (∀ vn, jsonToRDataFrame [] vn = "")
    ∧ (∀ h v vn, jsonToRDataFrame [[(h, v)]] vn =
        vn ++ " <- data.frame(\n" ++
          ("  " ++ sanitizeHeader h ++ " = c(" ++ specScalarLit (some v) ++ ")") ++
          ",\n  stringsAsFactors = FALSE\n)") := by
  refine ⟨renderValue_eq_spec, rfl, fun _ => rfl, fun h v vn => ?_⟩
  rw [jsonToRDataFrame_cons]
  simp [columnOf, jlookup, joinSep, renderValue_eq_spec, String.append_assoc]

/-- C5: every identifier the marshaller interpolates is the sanitized column
name, and sanitized names consist only of characters in `[A-Za-z0-9_]`. -/
theorem c5_identifier_sanitization :
    ∀ h : String, ((sanitizeHeader h).data.all isWordChar) = true :=
  sanitizeHeader_all_word

theorem jlookup_append_fresh (r : JRecord) (k h : String) (v : JVal) (hne : h ≠ k) :
    jlookup (r ++ [(k, v)]) h = jlookup r h := by
  induction r with
  | nil =>
    simp [jlookup, List.find?, beq_eq_false_iff_ne.mpr (fun hk => hne hk.symm)]
  | cons p r ih =>
    simp only [jlookup, List.cons_append, List.find?]
    cases hp : (p.1 == h) with
    | true => rfl
    | false => exact ih

/-- C10: the marshaller does not enforce the uniform-column invariant —
column names come solely from the first record, a key absent from the first
record is silently dropped from later records, and a first-record column
missing from a later record renders the missing-value literal `NA`, the
output staying the well-formed `data.frame` template. -/
theorem c10_nonuniform_payloads :
    (∀ r0 rs vn, jsonToRDataFrame (r0 :: rs) vn =
      vn ++ " <- data.frame(\n" ++
        joinSep ",\n" ((r0.map Prod.fst).map (columnOf (r0 :: rs))) ++
        ",\n  stringsAsFactors = FALSE\n)")
    ∧ (∀ vn (r0 : JRecord) rs1 r rs2 k v,
        ((r0.map Prod.fst).all (fun hd => !(hd == k))) = true →
        jsonToRDataFrame (r0 :: (rs1 ++ (r ++ [(k, v)]) :: rs2)) vn =
          jsonToRDataFrame (r0 :: (rs1 ++ r :: rs2)) vn)
    ∧ (∀ (r0 r : JRecord) h, jlookup r h = none →
        columnOf [r0, r] h =
          "  " ++ sanitizeHeader h ++ " = c(" ++
            (renderValue (jlookup r0 h) ++ ", " ++ "NA") ++ ")") := by
  refine ⟨jsonToRDataFrame_cons, ?_, ?_⟩
  · intro vn r0 rs1 r rs2 k v hall
    rw [jsonToRDataFrame_cons, jsonToRDataFrame_cons]
    have hcols : (r0.map Prod.fst).map (columnOf (r0 :: (rs1 ++ (r ++ [(k, v)]) :: rs2))) =
        (r0.map Prod.fst).map (columnOf (r0 :: (rs1 ++ r :: rs2))) := by
      apply List.map_congr_left
      intro h hmem
      have hne : h ≠ k := by
        have := List.all_eq_true.mp hall h hmem
        simpa using this
      unfold columnOf
      simp only [List.map_cons, List.map_append]
      rw [jlookup_append_fresh r k h v hne]
    rw [hcols]
  · intro r0 r h hnone
    simp [columnOf, joinSep, hnone, renderValue]

theorem c10_nonuniform_payloads_witness :
    ((([("id", JVal.num 1)] : JRecord).map Prod.fst).all (fun hd => !(hd == "extra"))) = true ∧
    jsonToRDataFrame [[("id", JVal.num 1)], [("id", JVal.num 2), ("extra", JVal.num 9)]] "d" =
      jsonToRDataFrame [[("id", JVal.num 1)], [("id", JVal.num 2)]] "d" ∧
    jlookup ([] : JRecord) "id" = none ∧
    columnOf [[("id", JVal.num 1)], []] "id" =
      "  " ++ sanitizeHeader "id" ++ " = c(" ++
        (renderValue (jlookup [("id", JVal.num 1)] "id") ++ ", " ++ "NA") ++ ")" :=
  ⟨by decide,
   c10_nonuniform_payloads.2.1 "d" [("id", JVal.num 1)] [] [("id", JVal.num 2)] [] "extra" (JVal.num 9) (by decide),
   by decide,
   c10_nonuniform_payloads.2.2 [("id", JVal.num 1)] [] "id" (by decide)⟩

/-! ## Output collector, artifact extractor and response assembly

Embedding of Steps 9-13 of the `POST` handler of the execute route, plus its
validation (Step 2) and catch-all error paths.
-/

/-- One element of `result.output` from `shelter.captureR`. -/
inductive OutItem where
  | stdout (d : String)
  | stderr (d : String)
deriving DecidableEq

/-- One element of `result.conditions`: an error- or warning-level
diagnostic raised during evaluation. -/
inductive RCond where
  | errC (message : String)
  | warnC (message : String)
deriving DecidableEq

/-- The captured raw evaluation result: output stream items, conditions, and
the R-level result (the list of artifact file paths reported by the wrapped
code). -/
structure RawResult where
  output : List OutItem
  conditions : List RCond
  files : List String
deriving DecidableEq

/-- The JSON response body of the execute endpoint (plus its HTTP status). -/
structure ApiResponse where
  success : Bool
  output : String
  plots : List String
  error : Option String
  status : Nat
deriving DecidableEq

/-- Step 9 of the handler: stdout lines are appended verbatim (plus a
newline), stderr lines with the `[stderr] ` marker. -/
def collectStreams (items : List OutItem) : String :=
  items.foldl (fun acc it =>
    match it with
    | .stdout d => acc ++ d ++ "\n"
    | .stderr d => acc ++ "[stderr] " ++ d ++ "\n") ""

/-- Step 10 of the handler: error conditions are concatenated (one per line)
into `errorMessage`, warning conditions are appended to the transcript with
the `[Warning] ` marker.  Returns the final `(outputText, errorMessage)`. -/
def collectConds (conds : List RCond) (outputText : String) : String × String :=
  conds.foldl (fun acc cn =>
    match cn with
    | .errC m => (acc.1, acc.2 ++ m ++ "\n")
    | .warnC m => (acc.1 ++ "[Warning] " ++ m ++ "\n", acc.2)) (outputText, "")

/-- `error.message || 'Unknown error occurred'` of the catch-all handler
(an empty message is falsy in JavaScript). -/
def fallbackMsg (m : String) : String :=
  if m = "" then "Unknown error occurred" else m

/-- Is the first list an initial segment of the second? -/
def listIsHeadOf : List Char → List Char → Bool
  | [], _ => true
  | _ :: _, [] => false
  | c :: cs, d :: ds => c == d && listIsHeadOf cs ds

/-- JavaScript `s.startsWith(pre)` (a literal character-sequence check). -/
def strStartsWith (s pre : String) : Bool :=
  listIsHeadOf pre.data s.data

/-- JavaScript `s.trim()` restricted to the ASCII whitespace the transcripts
can contain (space, tab, carriage return, newline). -/
def strTrim (s : String) : String :=
  ⟨((s.data.dropWhile Char.isWhitespace).reverse.dropWhile Char.isWhitespace).reverse⟩

/-- The standard base64 alphabet used by `Buffer.toString('base64')`. -/
def b64Alphabet : String :=
  "ABCDEFGHIJKLMNOPQRSTUVWXYZabcdefghijklmnopqrstuvwxyz0123456789+/"

def b64Char (n : Nat) : Char :=
  b64Alphabet.data.getD n 'A'

/-- Base64 encoding of a byte list with padding, as
`Buffer.from(bytes).toString('base64')` produces it. -/
def base64Encode : List Nat → String
  | a :: b :: c :: rest =>
    (⟨[b64Char (a / 4), b64Char (a % 4 * 16 + b / 16),
       b64Char (b % 16 * 4 + c / 64), b64Char (c % 64)]⟩ : String) ++ base64Encode rest
  | [a, b] => ⟨[b64Char (a / 4), b64Char (a % 4 * 16 + b / 16), b64Char (b % 16 * 4), '=']⟩
  | [a] => ⟨[b64Char (a / 4), b64Char (a % 4 * 16), '=', '=']⟩
  | [] => ""

/-- The handler's acceptance test for a reported artifact path
(`filename.startsWith('/tmp/')`). -/
def acceptsArtifactPath (f : String) : Bool :=
  strStartsWith f "/tmp/"

/-- Step 11 of the handler: walk the reported file paths in order; for each
path bearing the `/tmp/` literal, run the secondary read (modelled by
`reads`, returning `none` when the evaluation or conversion throws, and the
byte list otherwise — the R snippet itself returns `raw(0)` for a missing
file); push the base64 encoding when at least one byte came back.  Failures
and empty reads are skipped without aborting the loop. -/
def extractPlots (reads : String → Option (List Nat)) : List String → List String
  | [] => []
  | f :: fs =>
    if acceptsArtifactPath f then
      match reads f with
      | some bytes =>
        if bytes.length > 0 then base64Encode bytes :: extractPlots reads fs
        else extractPlots reads fs
      | none => extractPlots reads fs
    else extractPlots reads fs

/-- Which interpreter handle runs the secondary artifact-read evaluation.
The source (Step 11) calls `webR.evalR(...)` on the shared instance obtained
from `getWebRInstance()`, not `shelter.evalR` on the per-request shelter
created in Step 4. -/
inductive REvaluator where
  | globalRuntime
  | sessionShelter
deriving DecidableEq

def artifactReadEvaluator : REvaluator := .globalRuntime

/-- The ways one request can go through the handler, as far as the response
shape is concerned: `badCode` is a failed Step-2 validation; `preFault m` is
an exception before evaluation (body parse failure, `getWebRInstance`
rejection) with message `m`; `evalRun raw reads purgeFault` is an execution
that reached `captureR` and produced `raw`, with `reads` the outcome of the
secondary artifact reads and `purgeFault` an exception thrown by the first
`shelter.purge()` after evaluation (propagated to the catch-all handler). -/
inductive ExecScenario where
  | badCode
  | preFault (m : String)
  | evalRun (raw : RawResult) (reads : String → Option (List Nat)) (purgeFault : Option String)

/-- The response the handler assembles in each scenario, following the
source line by line (trims, status codes, field contents). -/
def postExec : ExecScenario → ApiResponse
  | .badCode =>
    ⟨false, "", [], some "Missing or invalid \"code\" parameter", 400⟩
  | .preFault m =>
    ⟨false, "", [], some (fallbackMsg m), 500⟩
  | .evalRun raw reads purgeFault =>
    let p := collectConds raw.conditions (collectStreams raw.output)
    if p.2 ≠ "" then
      match purgeFault with
      | some m => ⟨false, "", [], some (fallbackMsg m), 500⟩
      | none => ⟨false, strTrim p.1, [], some (strTrim p.2), 500⟩
    else
      let plots := extractPlots reads raw.files
      match purgeFault with
      | some m => ⟨false, "", [], some (fallbackMsg m), 500⟩
      | none => ⟨true, strTrim p.1, plots, none, 200⟩

/-! ### Spec-side definitions for the collector and extractor claims -/

/-- The transcript line one stream item contributes. -/
def streamLine : OutItem → String
  | .stdout d => d ++ "\n"
  | .stderr d => "[stderr] " ++ d ++ "\n"

/-- The transcript line one condition contributes (errors contribute none). -/
def warnLine : RCond → String
  | .warnC m => "[Warning] " ++ m ++ "\n"
  | .errC _ => ""

/-- The error-field line one condition contributes (warnings contribute
none). -/
def errLine : RCond → String
  | .errC m => m ++ "\n"
  | .warnC _ => ""

/-- Does the condition list contain an error-level diagnostic? -/
def hasErrCond (conds : List RCond) : Bool :=
  conds.any (fun cn => match cn with | .errC _ => true | .warnC _ => false)

/-- Plain concatenation of a list of strings. -/
def strJoin : List String → String
  | [] => ""
  | s :: rest => s ++ strJoin rest

/-- Split a character list at every slash. -/
def splitSlashAux : List Char → List Char → List (List Char)
  | [], acc => [acc.reverse]
  | '/' :: rest, acc => acc.reverse :: splitSlashAux rest []
  | c :: rest, acc => splitSlashAux rest (c :: acc)

/-- The slash-separated components of a path. -/
def pathComponents (s : String) : List String :=
  (splitSlashAux s.data []).map (fun l => ⟨l⟩)

/-- Resolution of `.` and `..` components of an absolute path, for the
spec-side notion of a path lying under the scratch directory. -/
def resolvePath (s : String) : List String :=
  (pathComponents s).foldl (fun acc comp =>
    if comp = "" ∨ comp = "." then acc
    else if comp = ".." then acc.dropLast
    else acc ++ [comp]) []

/-- Does the path, after resolving parent-directory components, name a file
strictly inside `/tmp`? -/
def liesUnderTmp (s : String) : Bool :=
  strStartsWith s "/" &&
    (match resolvePath s with
     | "tmp" :: rest => !rest.isEmpty
     | _ => false)

/-! ## Lemmas about the output collector -/

theorem str_append_eq_empty {a b : String} : a ++ b = "" ↔ a = "" ∧ b = "" := by
  cases a with
  | mk la =>
    cases b with
    | mk lb =>
      simp only [String.ext_iff]
      exact List.append_eq_nil

theorem foldl_streams (items : List OutItem) (acc : String) :
    items.foldl (fun acc it =>
      match it with
      | .stdout d => acc ++ d ++ "\n"
      | .stderr d => acc ++ "[stderr] " ++ d ++ "\n") acc
      = acc ++ strJoin (items.map streamLine) := by
  induction items generalizing acc with
  | nil => simp [strJoin]
  | cons it items ih =>
    cases it with
    | stdout d =>
      rw [List.foldl_cons, ih]
      simp [streamLine, strJoin, String.append_assoc]
    | stderr d =>
      rw [List.foldl_cons, ih]
      simp [streamLine, strJoin, String.append_assoc]

theorem collectStreams_spec (items : List OutItem) :
    collectStreams items = strJoin (items.map streamLine) := by
  rw [collectStreams, foldl_streams, String.empty_append]

theorem foldl_conds (conds : List RCond) (o e : String) :
    conds.foldl (fun acc cn =>
      match cn with
      | .errC m => (acc.1, acc.2 ++ m ++ "\n")
      | .warnC m => (acc.1 ++ "[Warning] " ++ m ++ "\n", acc.2)) (o, e)
      = (o ++ strJoin (conds.map warnLine), e ++ strJoin (conds.map errLine)) := by
  induction conds generalizing o e with
  | nil => simp [strJoin]
  | cons cn conds ih =>
    cases cn with
    | errC m =>
      rw [List.foldl_cons, show (match RCond.errC m with
        | RCond.errC m => ((o, e).1, (o, e).2 ++ m ++ "\n")
        | RCond.warnC m => ((o, e).1 ++ "[Warning] " ++ m ++ "\n", (o, e).2)) = (o, e ++ m ++ "\n") from rfl, ih]
      simp [warnLine, errLine, strJoin, String.append_assoc]
    | warnC m =>
      rw [List.foldl_cons, show (match RCond.warnC m with
        | RCond.errC m => ((o, e).1, (o, e).2 ++ m ++ "\n")
        | RCond.warnC m => ((o, e).1 ++ "[Warning] " ++ m ++ "\n", (o, e).2)) = (o ++ "[Warning] " ++ m ++ "\n", e) from rfl, ih]
      simp [warnLine, errLine, strJoin, String.append_assoc]

theorem collectConds_spec (conds : List RCond) (o : String) :
    collectConds conds o = (o ++ strJoin (conds.map warnLine), strJoin (conds.map errLine)) := by
  rw [collectConds, foldl_conds, String.empty_append]

theorem strJoin_err_ne (conds : List RCond) (h : hasErrCond conds = true) :
    strJoin (conds.map errLine) ≠ "" := by
  induction conds with
  | nil => simp [hasErrCond] at h
  | cons cn conds ih =>
    cases cn with
    | errC m =>
      simp only [List.map_cons, strJoin, errLine]
      intro heq
      have h2 := str_append_eq_empty.mp heq
      have h3 := str_append_eq_empty.mp h2.1
      exact absurd h3.2 (by decide)
    | warnC m =>
      have h' : hasErrCond conds = true := by
        simpa [hasErrCond] using h
      simp only [List.map_cons, strJoin, errLine, String.empty_append]
      exact ih h'

theorem strJoin_err_empty (conds : List RCond) (h : hasErrCond conds = false) :
    strJoin (conds.map errLine) = "" := by
  induction conds with
  | nil => rfl
  | cons cn conds ih =>
    cases cn with
    | errC m => simp [hasErrCond] at h
    | warnC m =>
      have h' : hasErrCond conds = false := by
        simpa [hasErrCond] using h
      simp [strJoin, errLine, ih h']

theorem postExec_evalRun_err (raw : RawResult) (reads : String → Option (List Nat))
    (h : hasErrCond raw.conditions = true) :
    postExec (.evalRun raw reads none) =
      ⟨false, strTrim (collectStreams raw.output ++ strJoin (raw.conditions.map warnLine)), [],
        some (strTrim (strJoin (raw.conditions.map errLine))), 500⟩ := by
  have hne := strJoin_err_ne raw.conditions h
  simp [postExec, collectConds_spec, hne]

theorem postExec_evalRun_ok (raw : RawResult) (reads : String → Option (List Nat))
    (h : hasErrCond raw.conditions = false) :
    postExec (.evalRun raw reads none) =
      ⟨true, strTrim (collectStreams raw.output ++ strJoin (raw.conditions.map warnLine)),
        extractPlots reads raw.files, none, 200⟩ := by
  have he := strJoin_err_empty raw.conditions h
  simp [postExec, collectConds_spec, he]

theorem postExec_evalRun_fault (raw : RawResult) (reads : String → Option (List Nat)) (m : String) :
    postExec (.evalRun raw reads (some m)) =
      ⟨false, "", [], some (fallbackMsg m), 500⟩ := by
  by_cases hc : (collectConds raw.conditions (collectStreams raw.output)).2 ≠ ""
  · simp [postExec, hc]
  · simp [postExec, hc]

theorem fallbackMsg_ne (m : String) : fallbackMsg m ≠ "" := by
  unfold fallbackMsg
  by_cases h : m = ""
  · simp [h]
  · simp [h]

/-! ## Claim theorems for the output collector and response contract -/

/-- C6: stdout lines append verbatim (stderr lines with the `[stderr] `
marker) to the transcript; error diagnostics are concatenated one per line
into the error field and force `success = false`; warning diagnostics are
appended to the transcript with the `[Warning] ` marker and never change the
success flag. -/
theorem c6_output_collection :
    (∀ items, collectStreams items = strJoin (items.map streamLine))
    ∧ (∀ conds o, collectConds conds o =
        (o ++ strJoin (conds.map warnLine), strJoin (conds.map errLine)))
    ∧ (∀ raw reads, hasErrCond raw.conditions = true →
        (postExec (.evalRun raw reads none)).success = false ∧
        (postExec (.evalRun raw reads none)).error =
          some (strTrim (strJoin (raw.conditions.map errLine))))
    ∧ (∀ raw reads, hasErrCond raw.conditions = false →
        (postExec (.evalRun raw reads none)).success = true ∧
        (postExec (.evalRun raw reads none)).output =
          strTrim (collectStreams raw.output ++ strJoin (raw.conditions.map warnLine))) := by
  refine ⟨collectStreams_spec, collectConds_spec, ?_, ?_⟩
  · intro raw reads h
    rw [postExec_evalRun_err raw reads h]
    exact ⟨rfl, rfl⟩
  · intro raw reads h
    rw [postExec_evalRun_ok raw reads h]
    exact ⟨rfl, rfl⟩

theorem c6_output_collection_witness :
    ((postExec (.evalRun ⟨[.stdout "x"], [.errC "bad"], []⟩ (fun _ => none) none)).success = false
      ∧ (postExec (.evalRun ⟨[.stdout "x"], [.errC "bad"], []⟩ (fun _ => none) none)).error =
          some (strTrim (strJoin ([RCond.errC "bad"].map errLine))))
    ∧ ((postExec (.evalRun ⟨[.stdout "x"], [.warnC "w"], []⟩ (fun _ => none) none)).success = true
      ∧ (postExec (.evalRun ⟨[.stdout "x"], [.warnC "w"], []⟩ (fun _ => none) none)).output =
          strTrim (collectStreams [.stdout "x"] ++ strJoin ([RCond.warnC "w"].map warnLine))) :=
  ⟨c6_output_collection.2.2.1 ⟨[.stdout "x"], [.errC "bad"], []⟩ (fun _ => none) (by decide),
   c6_output_collection.2.2.2 ⟨[.stdout "x"], [.warnC "w"], []⟩ (fun _ => none) (by decide)⟩

/-- C9 counterexample: an internal fault after evaluation (here the
`shelter.purge()` on the success path throwing with message `"boom"`) yields
a failure response whose `output` field is the empty string even though the
captured console transcript (`"x"` after trimming) is non-empty — the claim
says `output` still contains the transcript captured before the failure
point. -/
theorem c9_response_contract_cex :
    postExec (.evalRun ⟨[.stdout "x"], [], []⟩ (fun _ => none) (some "boom")) =
      ⟨false, "", [], some "boom", 500⟩
    ∧ strTrim (collectStreams [.stdout "x"]) = "x"
    ∧ ("x" : String) ≠ "" := by
  refine ⟨by decide, by decide, by decide⟩

/-- C9 (amended): every response carries `success`; `error` is non-empty on
the validation, pre-evaluation-fault, evaluation-error and post-evaluation
fault paths; `output` carries the trimmed captured transcript on the
evaluation-error path, but on internal-fault paths (body parse or
initialization failure, and any fault after evaluation) `output` is the
empty string even when a transcript had been captured. -/
theorem c9_response_contract :
    ((postExec .badCode).success = false
      ∧ (postExec .badCode).error = some "Missing or invalid \"code\" parameter"
      ∧ (postExec .badCode).output = "")
    ∧ (∀ m, (postExec (.preFault m)).success = false
      ∧ (postExec (.preFault m)).error = some (fallbackMsg m)
      ∧ fallbackMsg m ≠ ""
      ∧ (postExec (.preFault m)).output = "")
    ∧ (∀ raw reads, hasErrCond raw.conditions = true →
        (postExec (.evalRun raw reads none)).success = false
        ∧ (postExec (.evalRun raw reads none)).output =
            strTrim (collectStreams raw.output ++ strJoin (raw.conditions.map warnLine))
        ∧ (postExec (.evalRun raw reads none)).error =
            some (strTrim (strJoin (raw.conditions.map errLine)))
        ∧ strJoin (raw.conditions.map errLine) ≠ "")
    ∧ (∀ raw reads m, (postExec (.evalRun raw reads (some m))).success = false
        ∧ (postExec (.evalRun raw reads (some m))).error = some (fallbackMsg m)
        ∧ fallbackMsg m ≠ ""
        ∧ (postExec (.evalRun raw reads (some m))).output = "")
    ∧ (∀ raw reads, hasErrCond raw.conditions = false →
        (postExec (.evalRun raw reads none)).success = true
        ∧ (postExec (.evalRun raw reads none)).error = none) := by
  refine ⟨⟨rfl, rfl, rfl⟩, ?_, ?_, ?_, ?_⟩
  · intro m
    exact ⟨rfl, rfl, fallbackMsg_ne m, rfl⟩
  · intro raw reads h
    rw [postExec_evalRun_err raw reads h]
    exact ⟨rfl, rfl, rfl, strJoin_err_ne raw.conditions h⟩
  · intro raw reads m
    rw [postExec_evalRun_fault raw reads m]
    exact ⟨rfl, rfl, fallbackMsg_ne m, rfl⟩
  · intro raw reads h
    rw [postExec_evalRun_ok raw reads h]
    exact ⟨rfl, rfl⟩

theorem c9_response_contract_witness :
    ((postExec (.evalRun ⟨[.stderr "e"], [.errC "oops"], []⟩ (fun _ => none) none)).success = false
      ∧ (postExec (.evalRun ⟨[.stderr "e"], [.errC "oops"], []⟩ (fun _ => none) none)).error =
          some (strTrim (strJoin ([RCond.errC "oops"].map errLine))))
    ∧ (postExec (.evalRun ⟨[.stdout "ok"], [], []⟩ (fun _ => none) none)).success = true :=
  ⟨⟨(c9_response_contract.2.2.1 ⟨[.stderr "e"], [.errC "oops"], []⟩ (fun _ => none) (by decide)).1,
    (c9_response_contract.2.2.1 ⟨[.stderr "e"], [.errC "oops"], []⟩ (fun _ => none) (by decide)).2.2.1⟩,
   (c9_response_contract.2.2.2.2 ⟨[.stdout "ok"], [], []⟩ (fun _ => none) (by decide)).1⟩

/-! ## Claim theorems for the artifact extractor -/

/-- C2 counterexample: the path `/tmp/../etc/passwd` does not lie under
`/tmp` after resolving its parent-directory component, yet the extractor's
check (`startsWith('/tmp/')`) accepts it and it contributes an artifact. -/
theorem c2_path_containment_cex :
    acceptsArtifactPath "/tmp/../etc/passwd" = true
    ∧ liesUnderTmp "/tmp/../etc/passwd" = false
    ∧ extractPlots (fun f => if f = "/tmp/../etc/passwd" then some [0] else none)
        ["/tmp/../etc/passwd"] = ["AA=="] := by
  refine ⟨by decide, by decide, by decide⟩

/-- C2 (amended): the extractor accepts a reported path exactly when the
path's text begins with the literal `/tmp/`; a path without that literal
head is rejected and contributes no artifact, while an accepted readable
path contributes its encoded bytes — but containment is purely textual, so
parent-directory escapes behind the `/tmp/` literal are not rejected. -/
theorem c2_path_containment :
    (∀ f, acceptsArtifactPath f = strStartsWith f "/tmp/")
    ∧ (∀ reads f fs, acceptsArtifactPath f = false →
        extractPlots reads (f :: fs) = extractPlots reads fs)
    ∧ (∀ reads f fs bytes, acceptsArtifactPath f = true → reads f = some bytes →
        0 < bytes.length →
        extractPlots reads (f :: fs) = base64Encode bytes :: extractPlots reads fs) := by
  refine ⟨fun f => rfl, ?_, ?_⟩
  · intro reads f fs h
    simp [extractPlots, h]
  · intro reads f fs bytes hacc hread hlen
    simp [extractPlots, hacc, hread, hlen]

theorem c2_path_containment_witness :
    acceptsArtifactPath "relative.png" = false
    ∧ extractPlots (fun _ => some [1]) ["relative.png"] = [] :=
  ⟨by decide,
   (c2_path_containment.2.1 (fun _ => some [1]) "relative.png" [] (by decide)).trans rfl⟩

/-- C8 counterexample: the secondary artifact-read evaluation is performed
on the shared runtime instance (`webR.evalR`), not inside the per-request
session's shelter, contradicting the claim's "inside the same session". -/
theorem c8_artifact_extraction_cex :
    artifactReadEvaluator ≠ REvaluator.sessionShelter := by
  decide

/-- C8 (amended): the extractor reads accepted files through a secondary
evaluation on the shared runtime instance (not the session shelter),
base64-encodes the reads that yield at least one byte, and emits them in the
original path order; a failed read is skipped without aborting the remaining
artifacts, and the request's success flag does not depend on the reads at
all (it stays true when evaluation raised no error diagnostic). -/
theorem c8_artifact_extraction :
    (∀ reads files, extractPlots reads files = files.filterMap (fun f =>
        if acceptsArtifactPath f then
          match reads f with
          | some bytes => if bytes.length > 0 then some (base64Encode bytes) else none
          | none => none
        else none))
    ∧ (∀ reads f fs, reads f = none →
        extractPlots reads (f :: fs) = extractPlots reads fs)
    ∧ (∀ raw (reads reads' : String → Option (List Nat)),
        (postExec (.evalRun raw reads none)).success =
          (postExec (.evalRun raw reads' none)).success)
    ∧ (∀ raw reads, hasErrCond raw.conditions = false →
        (postExec (.evalRun raw reads none)).success = true)
    ∧ artifactReadEvaluator = REvaluator.globalRuntime := by
  refine ⟨?_, ?_, ?_, ?_, rfl⟩
  · intro reads files
    induction files with
    | nil => rfl
    | cons f fs ih =>
      by_cases hacc : acceptsArtifactPath f
      · cases hread : reads f with
        | some bytes =>
          by_cases hlen : bytes.length > 0
          · simp [extractPlots, List.filterMap_cons, hacc, hread, hlen, ih]
          · simp [extractPlots, List.filterMap_cons, hacc, hread, hlen, ih]
        | none => simp [extractPlots, List.filterMap_cons, hacc, hread, ih]
      · simp [extractPlots, List.filterMap_cons, hacc, ih]
  · intro reads f fs h
    by_cases hacc : acceptsArtifactPath f
    · simp [extractPlots, hacc, h]
    · simp [extractPlots, hacc]
  · intro raw reads reads'
    by_cases hc : (collectConds raw.conditions (collectStreams raw.output)).2 ≠ ""
    · simp [postExec, hc]
    · simp [postExec, hc]
  · intro raw reads h
    rw [postExec_evalRun_ok raw reads h]

theorem c8_artifact_extraction_witness :
    extractPlots (fun _ => none) ["/tmp/a.png", "/tmp/b.png"] =
      extractPlots (fun _ => none) ["/tmp/b.png"]
    ∧ (postExec (.evalRun ⟨[.stdout "x"], [.warnC "w"], ["/tmp/a.png"]⟩
        (fun _ => none) none)).success = true :=
  ⟨c8_artifact_extraction.2.1 (fun _ => none) "/tmp/a.png" ["/tmp/b.png"] rfl,
   c8_artifact_extraction.2.2.2.1 ⟨[.stdout "x"], [.warnC "w"], ["/tmp/a.png"]⟩
     (fun _ => none) (by decide)⟩

/-! ## Runtime manager: `getWebRInstance`

`src/lib/webr-singleton.ts` keeps three module-level cells:
`webrInstance` (null or the instance), `isInitializing` (boolean) and
`initPromise` (null or the in-flight bootstrap promise).  JavaScript runs
callers' synchronous segments atomically between `await` points, so the
embedding is a state machine driven by a schedule of atomic turns:

* `arrive i` — caller `i` enters `getWebRInstance` and runs its synchronous
  head: return the cached instance (fast path), attach to the in-flight
  promise (`isInitializing && initPromise`), or start the bootstrap task
  (set the flag, allocate a fresh task, record one bootstrap execution).
* `complete r` — the in-flight bootstrap task settles with outcome `r`:
  on success it stores the instance (`webrInstance = webR`); on failure its
  catch block clears the flag and the promise before rejecting.
* `resume i` — a caller whose awaited promise has settled runs its
  continuation: the starter additionally clears `isInitializing` on
  success; on failure the rejection propagates out of `getWebRInstance`.

Bootstrap tasks are numbered; `started` records every bootstrap execution
(in order) and `completed` the settled tasks with their outcomes.
-/

/-- Outcome of one bootstrap task. -/
inductive MOutcome where
  | success
  | failure
deriving DecidableEq

/-- Where one caller of `getWebRInstance` stands.  `doneVia (some t) r`
means the caller returned (or had the rejection propagate) after awaiting
task `t`; `doneVia none r` means it returned through the fast path. -/
inductive CallerPC where
  | idle
  | starter (t : Nat)
  | attached (t : Nat)
  | doneVia (t : Option Nat) (r : MOutcome)
deriving DecidableEq

/-- The three module-level cells of the singleton. -/
structure Mgr where
  inst : Bool
  initg : Bool
  prom : Option Nat
deriving DecidableEq

/-- Whole-system configuration: manager cells, every caller's state, the
next fresh task id, the bootstrap executions so far, and the settled tasks
with their outcomes. -/
structure MConfig where
  mgr : Mgr
  callers : Nat → CallerPC
  nextT : Nat
  started : List Nat
  completed : List (Nat × MOutcome)

/-- Outcome of a settled task (`none` while the task is in flight). -/
def lookupOutcome (l : List (Nat × MOutcome)) (t : Nat) : Option MOutcome :=
  (l.find? (fun p => p.1 == t)).map (·.2)

/-- Pointwise update of the caller map. -/
def updC (f : Nat → CallerPC) (i : Nat) (pc : CallerPC) : Nat → CallerPC :=
  fun j => if j = i then pc else f j

/-- The start-of-bootstrap segment: `isInitializing = true`,
`initPromise = (async () => ...)()` (a fresh task), caller `i` becomes the
starter awaiting it, and one more bootstrap execution is recorded. -/
def startInit (c : MConfig) (i : Nat) : MConfig :=
  { c with
    mgr := ⟨false, true, some c.nextT⟩
    callers := updC c.callers i (.starter c.nextT)
    nextT := c.nextT + 1
    started := c.started ++ [c.nextT] }

/-- One atomic turn of the event loop. -/
inductive MCmd where
  | arrive (i : Nat)
  | complete (r : MOutcome)
  | resume (i : Nat)

/-- The transition function.  Turns that are not enabled (a caller that
already arrived, settling with no in-flight promise, resuming a caller
whose promise has not settled) leave the configuration unchanged. -/
def stepM (c : MConfig) : MCmd → MConfig
  | .arrive i =>
    match c.callers i with
    | .idle =>
      if c.mgr.inst then
        { c with callers := updC c.callers i (.doneVia none .success) }
      else
        match c.mgr.prom with
        | some t =>
          if c.mgr.initg then { c with callers := updC c.callers i (.attached t) }
          else startInit c i
        | none => startInit c i
    | _ => c
  | .complete r =>
    match c.mgr.prom with
    | some t =>
      if (lookupOutcome c.completed t).isNone then
        match r with
        | .success =>
          { c with
            mgr := { c.mgr with inst := true }
            completed := c.completed ++ [(t, .success)] }
        | .failure =>
          { c with
            mgr := { c.mgr with initg := false, prom := none }
            completed := c.completed ++ [(t, .failure)] }
      else c
    | none => c
  | .resume i =>
    match c.callers i with
    | .starter t =>
      match lookupOutcome c.completed t with
      | some .success =>
        { c with
          mgr := { c.mgr with initg := false }
          callers := updC c.callers i (.doneVia (some t) .success) }
      | some .failure =>
        { c with callers := updC c.callers i (.doneVia (some t) .failure) }
      | none => c
    | .attached t =>
      match lookupOutcome c.completed t with
      | some r => { c with callers := updC c.callers i (.doneVia (some t) r) }
      | none => c
    | _ => c

/-- The process-start configuration: no instance, no flag, no promise,
every caller outside `getWebRInstance`. -/
def initM : MConfig :=
  ⟨⟨false, false, none⟩, fun _ => .idle, 0, [], []⟩

/-- Run a schedule of atomic turns from process start. -/
def runSched (cmds : List MCmd) : MConfig :=
  cmds.foldl stepM initM

/-- The bootstrap tasks currently in flight. -/
def inflightTasks (c : MConfig) : List Nat :=
  c.started.filter (fun t => (lookupOutcome c.completed t).isNone)

/-! ### Invariants of the runtime manager -/

theorem lookupOutcome_append (l1 l2 : List (Nat × MOutcome)) (t : Nat) :
    lookupOutcome (l1 ++ l2) t = (lookupOutcome l1 t).or (lookupOutcome l2 t) := by
  unfold lookupOutcome
  rw [List.find?_append]
  cases h : List.find? (fun p => p.1 == t) l1 <;> simp [h]

theorem lookupOutcome_single (t t' : Nat) (r : MOutcome) :
    lookupOutcome [(t, r)] t' = if t == t' then some r else none := by
  unfold lookupOutcome
  cases h : (t == t') <;> simp [List.find?, h]

theorem lookupOutcome_append_some {l : List (Nat × MOutcome)} {t : Nat} {r : MOutcome}
    (h : lookupOutcome l t = some r) (p : Nat × MOutcome) :
    lookupOutcome (l ++ [p]) t = some r := by
  rw [lookupOutcome_append, h]
  rfl

theorem lookupOutcome_append_self {l : List (Nat × MOutcome)} {t : Nat}
    (h : lookupOutcome l t = none) (r : MOutcome) :
    lookupOutcome (l ++ [(t, r)]) t = some r := by
  rw [lookupOutcome_append, h, lookupOutcome_single]
  simp

theorem lookupOutcome_append_other {l : List (Nat × MOutcome)} {t t' : Nat} (r : MOutcome)
    (hne : t' ≠ t) :
    lookupOutcome (l ++ [(t, r)]) t' = lookupOutcome l t' := by
  rw [lookupOutcome_append, lookupOutcome_single]
  rw [show (t == t') = false from beq_eq_false_iff_ne.mpr (fun h => hne h.symm)]
  cases h : lookupOutcome l t' <;> simp

theorem length_le_one_of_nodup_all_eq {l : List Nat} (hnd : l.Nodup)
    (h : ∀ a ∈ l, ∀ b ∈ l, a = b) : l.length ≤ 1 := by
  match l with
  | [] => simp
  | [a] => simp
  | a :: b :: l' =>
    exfalso
    have hab : a = b := h a (by simp) b (by simp)
    have hnotmem : a ∉ (b :: l') := (List.nodup_cons.mp hnd).1
    exact hnotmem (hab ▸ List.mem_cons_self b l')

/-- The inductive invariant of the runtime manager. -/
structure MInv (c : MConfig) : Prop where
  startedLt : ∀ t ∈ c.started, t < c.nextT
  startedNodup : c.started.Nodup
  promStarted : ∀ t, c.mgr.prom = some t → t ∈ c.started
  compStarted : ∀ p ∈ c.completed, p.1 ∈ c.started
  taskState : ∀ t ∈ c.started,
    (lookupOutcome c.completed t = none →
      c.mgr.inst = false ∧ c.mgr.initg = true ∧ c.mgr.prom = some t)
    ∧ (lookupOutcome c.completed t = some .success → c.mgr.inst = true)
  instStarted : c.mgr.inst = true →
    ∃ t, t ∈ c.started ∧ lookupOutcome c.completed t = some .success
  nonFailed :
    (c.started.filter (fun t => !(lookupOutcome c.completed t == some .failure))).length ≤ 1
  waitStarted : ∀ i t, c.callers i = .starter t ∨ c.callers i = .attached t → t ∈ c.started
  doneOutcome : ∀ i t r, c.callers i = .doneVia (some t) r → lookupOutcome c.completed t = some r
  doneFast : ∀ i r, c.callers i = .doneVia none r → r = .success ∧ c.started ≠ []

theorem lookupOutcome_mem {l : List (Nat × MOutcome)} {t : Nat} {r : MOutcome}
    (h : lookupOutcome l t = some r) : (t, r) ∈ l := by
  unfold lookupOutcome at h
  cases hf : List.find? (fun p => p.1 == t) l with
  | none => rw [hf] at h; cases h
  | some p =>
    rw [hf] at h
    have hp1 := List.find?_some hf
    have hpl : p ∈ l := List.mem_of_find?_eq_some hf
    have ht : p.1 = t := by simpa using hp1
    have hr : p.2 = r := by simpa using h
    have : p = (t, r) := Prod.ext ht hr
    rwa [this] at hpl

theorem updC_eq (f : Nat → CallerPC) (i : Nat) (pc : CallerPC) : updC f i pc i = pc := by
  simp [updC]

theorem updC_ne (f : Nat → CallerPC) (i : Nat) (pc : CallerPC) {j : Nat} (h : j ≠ i) :
    updC f i pc j = f j := by
  simp [updC, h]

/-- A step that only rewrites one caller's program counter preserves the
invariant, provided the new program counter itself satisfies the caller
clauses. -/
theorem MInv_update_callers (c : MConfig) (hc : MInv c) (i : Nat) (pc : CallerPC)
    (hwait : ∀ t, pc = .starter t ∨ pc = .attached t → t ∈ c.started)
    (hdone : ∀ t r, pc = .doneVia (some t) r → lookupOutcome c.completed t = some r)
    (hfast : ∀ r, pc = .doneVia none r → r = .success ∧ c.started ≠ []) :
    MInv { c with callers := updC c.callers i pc } := by
  refine ⟨hc.startedLt, hc.startedNodup, hc.promStarted, hc.compStarted, hc.taskState,
    hc.instStarted, hc.nonFailed, ?_, ?_, ?_⟩
  · intro j t hj
    dsimp only at hj ⊢
    by_cases hji : j = i
    · subst hji
      rw [updC_eq] at hj
      exact hwait t hj
    · rw [updC_ne _ _ _ hji] at hj
      exact hc.waitStarted j t hj
  · intro j t r hj
    dsimp only at hj ⊢
    by_cases hji : j = i
    · subst hji
      rw [updC_eq] at hj
      exact hdone t r hj
    · rw [updC_ne _ _ _ hji] at hj
      exact hc.doneOutcome j t r hj
  · intro j r hj
    dsimp only at hj ⊢
    by_cases hji : j = i
    · subst hji
      rw [updC_eq] at hj
      exact hfast r hj
    · rw [updC_ne _ _ _ hji] at hj
      exact hc.doneFast j r hj

/-- Starting the bootstrap preserves the invariant (the branch requires
`webrInstance` null and no attachable in-flight promise). -/
theorem MInv_startInit (c : MConfig) (hc : MInv c) (i : Nat)
    (hinst : c.mgr.inst = false)
    (hstart : c.mgr.prom = none ∨ c.mgr.initg = false) :
    MInv (startInit c i) := by
  have hallfail : ∀ t ∈ c.started, lookupOutcome c.completed t = some .failure := by
    intro t ht
    cases hlo : lookupOutcome c.completed t with
    | none =>
      obtain ⟨_, hg, hp⟩ := (hc.taskState t ht).1 hlo
      rcases hstart with hp0 | hg0
      · rw [hp0] at hp; cases hp
      · rw [hg0] at hg; cases hg
    | some r =>
      cases r with
      | success =>
        have hi := (hc.taskState t ht).2 hlo
        rw [hinst] at hi; cases hi
      | failure => rfl
  have hnextfresh : lookupOutcome c.completed c.nextT = none := by
    cases hlo : lookupOutcome c.completed c.nextT with
    | none => rfl
    | some r =>
      have hmem := hc.startedLt _ (hc.compStarted _ (lookupOutcome_mem hlo))
      exact absurd hmem (by omega)
  refine ⟨?_, ?_, ?_, ?_, ?_, ?_, ?_, ?_, ?_, ?_⟩
  · intro t ht
    dsimp only [startInit] at ht ⊢
    rcases List.mem_append.mp ht with h | h
    · exact Nat.lt_succ_of_lt (hc.startedLt t h)
    · simp only [List.mem_singleton] at h; omega
  · dsimp only [startInit]
    rw [List.nodup_append]
    refine ⟨hc.startedNodup, List.nodup_singleton _, ?_⟩
    intro a ha hb
    simp only [List.mem_singleton] at hb
    subst hb
    exact absurd (hc.startedLt _ ha) (by omega)
  · intro t hp
    dsimp only [startInit] at hp ⊢
    injection hp with h
    subst h
    exact List.mem_append_right _ (by simp)
  · intro p hp
    dsimp only [startInit] at hp ⊢
    exact List.mem_append_left _ (hc.compStarted p hp)
  · intro t ht
    dsimp only [startInit] at ht ⊢
    rcases List.mem_append.mp ht with h | h
    · have hf := hallfail t h
      refine ⟨fun hlo => ?_, fun hlo => ?_⟩
      · rw [hf] at hlo; cases hlo
      · rw [hf] at hlo; simp at hlo
    · simp only [List.mem_singleton] at h
      subst h
      refine ⟨fun _ => ⟨rfl, rfl, rfl⟩, fun hlo => ?_⟩
      rw [hnextfresh] at hlo; cases hlo
  · intro h
    dsimp only [startInit] at h
    cases h
  · dsimp only [startInit]
    rw [List.filter_append]
    have h1 : List.filter (fun t => !(lookupOutcome c.completed t == some .failure)) c.started
        = [] := by
      apply List.filter_eq_nil_iff.mpr
      intro t ht
      simp [hallfail t ht]
    rw [h1]
    simp [hnextfresh]
  · intro j t hj
    dsimp only [startInit] at hj ⊢
    by_cases hji : j = i
    · subst hji
      rw [updC_eq] at hj
      rcases hj with hj | hj
      · injection hj with h
        subst h
        exact List.mem_append_right _ (by simp)
      · cases hj
    · rw [updC_ne _ _ _ hji] at hj
      exact List.mem_append_left _ (hc.waitStarted j t hj)
  · intro j t r hj
    dsimp only [startInit] at hj ⊢
    by_cases hji : j = i
    · subst hji
      rw [updC_eq] at hj
      cases hj
    · rw [updC_ne _ _ _ hji] at hj
      exact hc.doneOutcome j t r hj
  · intro j r hj
    dsimp only [startInit] at hj ⊢
    by_cases hji : j = i
    · subst hji
      rw [updC_eq] at hj
      cases hj
    · rw [updC_ne _ _ _ hji] at hj
      exact ⟨(hc.doneFast j r hj).1, by simp⟩

/-- Successful settlement of the in-flight bootstrap preserves the
invariant (`webrInstance = webR` happens inside the task before it
resolves). -/
theorem MInv_complete_success (c : MConfig) (hc : MInv c) (t : Nat)
    (hp : c.mgr.prom = some t) (hun : lookupOutcome c.completed t = none) :
    MInv { c with mgr := { c.mgr with inst := true },
                  completed := c.completed ++ [(t, .success)] } := by
  have htmem : t ∈ c.started := hc.promStarted t hp
  have hB : ∀ t' ∈ c.started, t' ≠ t → lookupOutcome c.completed t' ≠ none := by
    intro t' ht' hne hlo
    obtain ⟨_, _, hp'⟩ := (hc.taskState t' ht').1 hlo
    rw [hp] at hp'
    injection hp' with h
    exact hne h.symm
  refine ⟨hc.startedLt, hc.startedNodup, hc.promStarted, ?_, ?_, ?_, ?_, hc.waitStarted, ?_, hc.doneFast⟩
  · intro p hpm
    dsimp only at hpm ⊢
    rcases List.mem_append.mp hpm with h | h
    · exact hc.compStarted p h
    · simp only [List.mem_singleton] at h
      subst h
      exact htmem
  · intro t' ht'
    dsimp only at ht' ⊢
    by_cases hat : t' = t
    · subst hat
      have hself := lookupOutcome_append_self hun MOutcome.success
      refine ⟨fun hlo => ?_, fun _ => rfl⟩
      rw [hself] at hlo; cases hlo
    · have hother := lookupOutcome_append_other (l := c.completed) (t := t) MOutcome.success hat
      refine ⟨fun hlo => ?_, fun _ => rfl⟩
      rw [hother] at hlo
      exact absurd hlo (hB t' ht' hat)
  · intro _
    exact ⟨t, htmem, lookupOutcome_append_self hun MOutcome.success⟩
  · dsimp only
    rw [show List.filter
        (fun t' => !(lookupOutcome (c.completed ++ [(t, MOutcome.success)]) t' == some MOutcome.failure))
        c.started
      = List.filter (fun t' => !(lookupOutcome c.completed t' == some MOutcome.failure)) c.started
      from List.filter_congr ?_]
    · exact hc.nonFailed
    · intro a _
      by_cases hat : a = t
      · subst hat
        rw [lookupOutcome_append_self hun, hun]
        decide
      · rw [lookupOutcome_append_other _ hat]
  · intro j t' r hj
    dsimp only at hj ⊢
    exact lookupOutcome_append_some (hc.doneOutcome j t' r hj) _

/-- Failed settlement of the in-flight bootstrap: the catch block clears
`isInitializing` and `initPromise` before the promise rejects; the
invariant is preserved. -/
theorem MInv_complete_failure (c : MConfig) (hc : MInv c) (t : Nat)
    (hp : c.mgr.prom = some t) (hun : lookupOutcome c.completed t = none) :
    MInv { c with mgr := { c.mgr with initg := false, prom := none },
                  completed := c.completed ++ [(t, .failure)] } := by
  have htmem : t ∈ c.started := hc.promStarted t hp
  have hinst : c.mgr.inst = false := ((hc.taskState t htmem).1 hun).1
  have hB : ∀ t' ∈ c.started, t' ≠ t → lookupOutcome c.completed t' ≠ none := by
    intro t' ht' hne hlo
    obtain ⟨_, _, hp'⟩ := (hc.taskState t' ht').1 hlo
    rw [hp] at hp'
    injection hp' with h
    exact hne h.symm
  refine ⟨hc.startedLt, hc.startedNodup, ?_, ?_, ?_, ?_, ?_, hc.waitStarted, ?_, hc.doneFast⟩
  · intro t' hp'
    dsimp only at hp'
    cases hp'
  · intro p hpm
    dsimp only at hpm ⊢
    rcases List.mem_append.mp hpm with h | h
    · exact hc.compStarted p h
    · simp only [List.mem_singleton] at h
      subst h
      exact htmem
  · intro t' ht'
    dsimp only at ht' ⊢
    by_cases hat : t' = t
    · subst hat
      have hself := lookupOutcome_append_self hun MOutcome.failure
      refine ⟨fun hlo => ?_, fun hlo => ?_⟩
      · rw [hself] at hlo; cases hlo
      · rw [hself] at hlo; simp at hlo
    · have hother := lookupOutcome_append_other (l := c.completed) (t := t) MOutcome.failure hat
      refine ⟨fun hlo => ?_, fun hlo => ?_⟩
      · rw [hother] at hlo
        exact absurd hlo (hB t' ht' hat)
      · rw [hother] at hlo
        have hi := (hc.taskState t' ht').2 hlo
        rw [hinst] at hi
        cases hi
  · intro h
    dsimp only at h
    rw [hinst] at h
    cases h
  · dsimp only
    have hsub := List.monotone_filter_right
      (p := fun t' => !(lookupOutcome (c.completed ++ [(t, MOutcome.failure)]) t' == some MOutcome.failure))
      (q := fun t' => !(lookupOutcome c.completed t' == some MOutcome.failure))
      c.started ?_
    · exact le_trans hsub.length_le hc.nonFailed
    · intro a hpa
      dsimp only at hpa ⊢
      by_cases hat : a = t
      · subst hat
        rw [lookupOutcome_append_self hun] at hpa
        simp at hpa
      · rwa [lookupOutcome_append_other _ hat] at hpa
  · intro j t' r hj
    dsimp only at hj ⊢
    exact lookupOutcome_append_some (hc.doneOutcome j t' r hj) _

/-- The starter's continuation after a successful bootstrap
(`isInitializing = false; return webrInstance`) preserves the invariant. -/
theorem MInv_resume_starter_success (c : MConfig) (hc : MInv c) (i t : Nat)
    (hci : c.callers i = .starter t)
    (hlo : lookupOutcome c.completed t = some .success) :
    MInv { c with mgr := { c.mgr with initg := false },
                  callers := updC c.callers i (.doneVia (some t) .success) } := by
  have htmem : t ∈ c.started := hc.waitStarted i t (Or.inl hci)
  have hinst : c.mgr.inst = true := (hc.taskState t htmem).2 hlo
  have hC : ∀ t' ∈ c.started, lookupOutcome c.completed t' ≠ none := by
    intro t' ht' hlo'
    have := ((hc.taskState t' ht').1 hlo').1
    rw [hinst] at this
    cases this
  refine ⟨hc.startedLt, hc.startedNodup, hc.promStarted, hc.compStarted, ?_, ?_, hc.nonFailed,
    ?_, ?_, ?_⟩
  · intro t' ht'
    dsimp only at ht' ⊢
    exact ⟨fun hlo' => absurd hlo' (hC t' ht'), fun _ => hinst⟩
  · intro _
    exact hc.instStarted hinst
  · intro j t' hj
    dsimp only at hj ⊢
    by_cases hji : j = i
    · subst hji
      rw [updC_eq] at hj
      rcases hj with hj | hj <;> cases hj
    · rw [updC_ne _ _ _ hji] at hj
      exact hc.waitStarted j t' hj
  · intro j t' r hj
    dsimp only at hj ⊢
    by_cases hji : j = i
    · subst hji
      rw [updC_eq] at hj
      injection hj with h1 h2
      injection h1 with h1
      subst h1
      subst h2
      exact hlo
    · rw [updC_ne _ _ _ hji] at hj
      exact hc.doneOutcome j t' r hj
  · intro j r hj
    dsimp only at hj ⊢
    by_cases hji : j = i
    · subst hji
      rw [updC_eq] at hj
      injection hj with h1 _
      cases h1
    · rw [updC_ne _ _ _ hji] at hj
      exact hc.doneFast j r hj

/-- Every atomic turn preserves the invariant. -/
theorem MInv_step (c : MConfig) (hc : MInv c) (cmd : MCmd) : MInv (stepM c cmd) := by
  cases cmd with
  | arrive i =>
    cases hci : c.callers i with
    | idle =>
      simp only [stepM, hci]
      by_cases hinst : c.mgr.inst = true
      · rw [if_pos hinst]
        refine MInv_update_callers c hc i _ ?_ ?_ ?_
        · intro t h
          rcases h with h | h <;> cases h
        · intro t r h
          injection h with h1 _
          cases h1
        · intro r h
          injection h with _ h2
          refine ⟨h2.symm, ?_⟩
          obtain ⟨t, ht, _⟩ := hc.instStarted hinst
          exact List.ne_nil_of_mem ht
      · rw [if_neg hinst]
        have hinstf : c.mgr.inst = false := by
          revert hinst
          cases c.mgr.inst <;> simp
        cases hp : c.mgr.prom with
        | some t =>
          dsimp only
          by_cases hg : c.mgr.initg = true
          · rw [if_pos hg]
            refine MInv_update_callers c hc i _ ?_ ?_ ?_
            · intro t' h
              rcases h with h | h
              · cases h
              · injection h with h1
                subst h1
                exact hc.promStarted t hp
            · intro t' r h
              cases h
            · intro r h
              cases h
          · rw [if_neg hg]
            have hgf : c.mgr.initg = false := by
              revert hg
              cases c.mgr.initg <;> simp
            exact MInv_startInit c hc i hinstf (Or.inr hgf)
        | none =>
          exact MInv_startInit c hc i hinstf (Or.inl hp)
    | starter t =>
      simp only [stepM, hci]
      exact hc
    | attached t =>
      simp only [stepM, hci]
      exact hc
    | doneVia t r =>
      simp only [stepM, hci]
      exact hc
  | complete r =>
    simp only [stepM]
    cases hp : c.mgr.prom with
    | none => exact hc
    | some t =>
      dsimp only
      by_cases hun : (lookupOutcome c.completed t).isNone = true
      · rw [if_pos hun]
        have hun' : lookupOutcome c.completed t = none := Option.isNone_iff_eq_none.mp hun
        cases r with
        | success =>
          rw [show (some t : Option Nat) = c.mgr.prom from hp.symm]
          exact MInv_complete_success c hc t hp hun'
        | failure => exact MInv_complete_failure c hc t hp hun'
      · rw [if_neg hun]
        exact hc
  | resume i =>
    cases hci : c.callers i with
    | idle =>
      simp only [stepM, hci]
      exact hc
    | starter t =>
      simp only [stepM, hci]
      cases hlo : lookupOutcome c.completed t with
      | none =>
        exact hc
      | some r =>
        cases r with
        | success => exact MInv_resume_starter_success c hc i t hci hlo
        | failure =>
          refine MInv_update_callers c hc i _ ?_ ?_ ?_
          · intro t' h
            cases h <;> simp_all
          · intro t' r' h
            injection h with h1 h2
            injection h1 with h1
            subst h1
            subst h2
            exact hlo
          · intro r' h
            injection h with h1 _
            cases h1
    | attached t =>
      simp only [stepM, hci]
      cases hlo : lookupOutcome c.completed t with
      | none =>
        exact hc
      | some r =>
        refine MInv_update_callers c hc i _ ?_ ?_ ?_
        · intro t' h
          cases h <;> simp_all
        · intro t' r' h
          injection h with h1 h2
          injection h1 with h1
          subst h1
          subst h2
          exact hlo
        · intro r' h
          injection h with h1 _
          cases h1
    | doneVia t r =>
      simp only [stepM, hci]
      exact hc

theorem MInv_init : MInv initM := by
  refine ⟨?_, ?_, ?_, ?_, ?_, ?_, ?_, ?_, ?_, ?_⟩
  · intro t ht; cases ht
  · exact List.nodup_nil
  · intro t hp; cases hp
  · intro p hp; cases hp
  · intro t ht; cases ht
  · intro h; cases h
  · simp [initM]
  · intro j t hj; rcases hj with hj | hj <;> cases hj
  · intro j t r hj; cases hj
  · intro j r hj; cases hj

theorem MInv_foldl (cmds : List MCmd) (c : MConfig) (hc : MInv c) :
    MInv (cmds.foldl stepM c) := by
  induction cmds generalizing c with
  | nil => exact hc
  | cons cmd cmds ih => exact ih _ (MInv_step c hc cmd)

theorem MInv_runSched (cmds : List MCmd) : MInv (runSched cmds) :=
  MInv_foldl cmds initM MInv_init

/-! ## Claim theorems for the runtime manager

`(runSched cmds).started.length` counts the bootstrap executions (each
`startInit` runs the async initialization closure once).
-/

/-- C1: under every interleaving of arriving callers, task settlements and
continuations, (i) at most one bootstrap task is in flight at any instant;
(ii) all callers waiting on in-flight tasks wait on the same task; (iii) as
long as no bootstrap has failed, once any caller has arrived the bootstrap
has executed exactly once, regardless of how many callers arrived; (iv) any
two callers that resolved through the same task received the identical
outcome. -/
theorem c1_single_flight :
    (∀ cmds, (inflightTasks (runSched cmds)).length ≤ 1)
    ∧ (∀ cmds i j t t',
        ((runSched cmds).callers i = .starter t ∨ (runSched cmds).callers i = .attached t) →
        ((runSched cmds).callers j = .starter t' ∨ (runSched cmds).callers j = .attached t') →
        lookupOutcome (runSched cmds).completed t = none →
        lookupOutcome (runSched cmds).completed t' = none →
        t = t')
    ∧ (∀ cmds, (∀ p ∈ (runSched cmds).completed, p.2 = MOutcome.success) →
        (∃ i, (runSched cmds).callers i ≠ .idle) →
        (runSched cmds).started.length = 1)
    ∧ (∀ cmds i j t r r',
        (runSched cmds).callers i = .doneVia (some t) r →
        (runSched cmds).callers j = .doneVia (some t) r' →
        r = r') := by
  refine ⟨?_, ?_, ?_, ?_⟩
  · intro cmds
    have hinv := MInv_runSched cmds
    unfold inflightTasks
    apply length_le_one_of_nodup_all_eq (hinv.startedNodup.filter _)
    intro a ha b hb
    rw [List.mem_filter] at ha hb
    have ha2 : lookupOutcome (runSched cmds).completed a = none :=
      Option.isNone_iff_eq_none.mp ha.2
    have hb2 : lookupOutcome (runSched cmds).completed b = none :=
      Option.isNone_iff_eq_none.mp hb.2
    have hpa := ((hinv.taskState a ha.1).1 ha2).2.2
    have hpb := ((hinv.taskState b hb.1).1 hb2).2.2
    rw [hpa] at hpb
    injection hpb
  · intro cmds i j t t' hi hj ht ht'
    have hinv := MInv_runSched cmds
    have hpa := ((hinv.taskState t (hinv.waitStarted i t hi)).1 ht).2.2
    have hpb := ((hinv.taskState t' (hinv.waitStarted j t' hj)).1 ht').2.2
    rw [hpa] at hpb
    injection hpb
  · intro cmds hsucc hex
    obtain ⟨i, hi⟩ := hex
    have hinv := MInv_runSched cmds
    have hne : (runSched cmds).started ≠ [] := by
      cases hci : (runSched cmds).callers i with
      | idle => exact absurd hci hi
      | starter t => exact List.ne_nil_of_mem (hinv.waitStarted i t (Or.inl hci))
      | attached t => exact List.ne_nil_of_mem (hinv.waitStarted i t (Or.inr hci))
      | doneVia ot r =>
        cases ot with
        | none => exact (hinv.doneFast i r hci).2
        | some t =>
          have hlo := hinv.doneOutcome i t r hci
          exact List.ne_nil_of_mem (hinv.compStarted _ (lookupOutcome_mem hlo))
    have hfe : List.filter
        (fun t => !(lookupOutcome (runSched cmds).completed t == some MOutcome.failure))
        (runSched cmds).started = (runSched cmds).started := by
      apply List.filter_eq_self.mpr
      intro a _
      cases hlo : lookupOutcome (runSched cmds).completed a with
      | none => simp
      | some r =>
        have hr : r = MOutcome.success := hsucc _ (lookupOutcome_mem hlo)
        subst hr
        simp
    have hle := hinv.nonFailed
    rw [hfe] at hle
    have hpos : 0 < (runSched cmds).started.length := List.length_pos.mpr hne
    omega
  · intro cmds i j t r r' hi hj
    have hinv := MInv_runSched cmds
    have h1 := hinv.doneOutcome i t r hi
    have h2 := hinv.doneOutcome j t r' hj
    rw [h1] at h2
    injection h2

theorem c1_single_flight_witness :
    (runSched [MCmd.arrive 0, MCmd.arrive 1, MCmd.complete MOutcome.success,
        MCmd.resume 0, MCmd.resume 1, MCmd.arrive 2]).started.length = 1
    ∧ (0 : Nat) = 0
    ∧ MOutcome.success = MOutcome.success :=
  ⟨c1_single_flight.2.2.1
      [MCmd.arrive 0, MCmd.arrive 1, MCmd.complete MOutcome.success,
        MCmd.resume 0, MCmd.resume 1, MCmd.arrive 2]
      (by decide) ⟨0, by decide⟩,
   c1_single_flight.2.1 [MCmd.arrive 0, MCmd.arrive 1] 0 1 0 0
      (Or.inl (by decide)) (Or.inr (by decide)) (by decide) (by decide),
   c1_single_flight.2.2.2
      [MCmd.arrive 0, MCmd.arrive 1, MCmd.complete MOutcome.success,
        MCmd.resume 0, MCmd.resume 1]
      0 1 0 MOutcome.success MOutcome.success (by decide) (by decide)⟩

/-- C7: when the in-flight bootstrap fails, the settlement resets the
manager to the uninitialized state (`webrInstance` still null, flag
cleared, promise cleared); from that state an arriving caller starts a
fresh bootstrap; and the failure is delivered as the outcome of every
caller awaiting that task — a waiter's continuation resolves it to the
failure outcome, and any caller resolved through the failed task carries
the failure, never a masked success. -/
theorem c7_failure_reset :
    (∀ cmds t, (runSched cmds).mgr.prom = some t →
        lookupOutcome (runSched cmds).completed t = none →
        (stepM (runSched cmds) (.complete .failure)).mgr = ⟨false, false, none⟩
        ∧ (stepM (runSched cmds) (.complete .failure)).completed =
            (runSched cmds).completed ++ [(t, .failure)])
    ∧ (∀ (c : MConfig) i, c.mgr = ⟨false, false, none⟩ → c.callers i = .idle →
        stepM c (.arrive i) = startInit c i)
    ∧ (∀ cmds i t,
        ((runSched cmds).callers i = .starter t ∨ (runSched cmds).callers i = .attached t) →
        lookupOutcome (runSched cmds).completed t = some .failure →
        (stepM (runSched cmds) (.resume i)).callers i = .doneVia (some t) .failure)
    ∧ (∀ cmds i t r, (runSched cmds).callers i = .doneVia (some t) r →
        lookupOutcome (runSched cmds).completed t = some .failure →
        r = .failure) := by
  refine ⟨?_, ?_, ?_, ?_⟩
  · intro cmds t hp hun
    have hinv := MInv_runSched cmds
    have hinst : (runSched cmds).mgr.inst = false :=
      ((hinv.taskState t (hinv.promStarted t hp)).1 hun).1
    constructor
    · simp [stepM, hp, hun, hinst]
    · simp [stepM, hp, hun]
  · intro c i hmgr hci
    simp [stepM, hci, hmgr]
  · intro cmds i t hw hlo
    rcases hw with hci | hci
    · simp [stepM, hci, hlo, updC]
    · simp [stepM, hci, hlo, updC]
  · intro cmds i t r hci hlo
    have h1 := (MInv_runSched cmds).doneOutcome i t r hci
    rw [h1] at hlo
    exact Option.some.inj hlo

theorem c7_failure_reset_witness :
    (stepM (runSched [MCmd.arrive 0]) (.complete .failure)).mgr = ⟨false, false, none⟩
    ∧ stepM initM (.arrive 0) = startInit initM 0
    ∧ (stepM (runSched [MCmd.arrive 0, MCmd.complete MOutcome.failure]) (.resume 0)).callers 0 =
        .doneVia (some 0) .failure :=
  ⟨(c7_failure_reset.1 [MCmd.arrive 0] 0 (by decide) (by decide)).1,
   c7_failure_reset.2.1 initM 0 rfl rfl,
   c7_failure_reset.2.2.1 [MCmd.arrive 0, MCmd.complete MOutcome.failure] 0 0
      (Or.inl (by decide)) (by decide)⟩
